import Mathlib

set_option maxRecDepth 100000

/-!
Verification of the nusantaracoin single-node blockchain (src/python.py).

The development shallowly embeds the Python program: the `Blockchain` class
becomes a record of its mutable fields plus the SQLite table it writes to,
its methods become pure state-passing functions, and SHA-256 together with
`json.dumps(block, sort_keys=True)` are implemented executably over `Nat`
byte lists.  Python floats returned by `time()` are abstracted as `Nat`
timestamps supplied by the environment; nothing proved here depends on the
textual rendering of a timestamp.
-/

namespace Nusantara

/-! ## SHA-256, executable over lists of byte values (`Nat < 256`).
Words are `Nat` reduced modulo `2 ^ 32` (4294967296) wherever overflow
matters, mirroring 32-bit machine arithmetic. -/

/-- Reduce to a 32-bit word. -/
def wmask (x : Nat) : Nat := x % 4294967296

/-- Right rotation of a 32-bit word by `n` bits. -/
def rotr (n x : Nat) : Nat := wmask (x >>> n ||| x <<< (32 - n))

/-- SHA-256 big Σ0. -/
def bigSigma0 (x : Nat) : Nat := rotr 2 x ^^^ rotr 13 x ^^^ rotr 22 x

/-- SHA-256 big Σ1. -/
def bigSigma1 (x : Nat) : Nat := rotr 6 x ^^^ rotr 11 x ^^^ rotr 25 x

/-- SHA-256 small σ0. -/
def smallSigma0 (x : Nat) : Nat := rotr 7 x ^^^ rotr 18 x ^^^ x >>> 3

/-- SHA-256 small σ1. -/
def smallSigma1 (x : Nat) : Nat := rotr 17 x ^^^ rotr 19 x ^^^ x >>> 10

/-- SHA-256 choice function; complement of a 32-bit word is xor with `2^32 - 1`. -/
def chF (x y z : Nat) : Nat := (x &&& y) ^^^ ((x ^^^ 4294967295) &&& z)

/-- SHA-256 majority function. -/
def majF (x y z : Nat) : Nat := (x &&& y) ^^^ (x &&& z) ^^^ (y &&& z)

/-- The 64 SHA-256 round constants, in decimal. -/
def roundK : List Nat :=
  [1116352408, 1899447441, 3049323471, 3921009573, 961987163,
   1508970993, 2453635748, 2870763221, 3624381080, 310598401,
   607225278, 1426881987, 1925078388, 2162078206, 2614888103,
   3248222580, 3835390401, 4022224774, 264347078, 604807628,
   770255983, 1249150122, 1555081692, 1996064986, 2554220882,
   2821834349, 2952996808, 3210313671, 3336571891, 3584528711,
   113926993, 338241895, 666307205, 773529912, 1294757372,
   1396182291, 1695183700, 1986661051, 2177026350, 2456956037,
   2730485921, 2820302411, 3259730800, 3345764771, 3516065817,
   3600352804, 4094571909, 275423344, 430227734, 506948616,
   659060556, 883997877, 958139571, 1322822218, 1537002063,
   1747873779, 1955562222, 2024104815, 2227730452, 2361852424,
   2428436474, 2756734187, 3204031479, 3329325298]

/-- The initial SHA-256 hash state, in decimal. -/
def hInit : List Nat :=
  [1779033703, 3144134277, 1013904242, 2773480762,
   1359893119, 2600822924, 528734635, 1541459225]

/-- `x` as `n` big-endian bytes. -/
def toBytesBE : Nat → Nat → List Nat
  | 0, _ => []
  | m + 1, x => toBytesBE m (x / 256) ++ [x % 256]

/-- SHA-256 padding: append `0x80`, zero bytes to 56 mod 64, then the
64-bit big-endian bit length. -/
def padMessage (msg : List Nat) : List Nat :=
  msg ++ [128] ++ List.replicate ((119 - msg.length % 64) % 64) 0 ++
    toBytesBE 8 (8 * msg.length)

/-- Split a byte list into 64-byte chunks; the fuel argument (instantiated
with the list length) makes the recursion structural so that the kernel can
evaluate it. -/
def chunksAux : Nat → List Nat → List (List Nat)
  | 0, _ => []
  | _, [] => []
  | fuel + 1, a :: as => ((a :: as).take 64) :: chunksAux fuel ((a :: as).drop 64)

/-- Split a byte list into 64-byte chunks. -/
def chunks64 (l : List Nat) : List (List Nat) :=
  chunksAux l.length l

/-- Group bytes four at a time into big-endian 32-bit words. -/
def wordsOfChunk : List Nat → List Nat
  | b0 :: b1 :: b2 :: b3 :: rest =>
      (((b0 * 256 + b1) * 256 + b2) * 256 + b3) :: wordsOfChunk rest
  | _ => []

/-- Append the next message-schedule word. -/
def scheduleStep (ws : List Nat) : List Nat :=
  let n := ws.length
  ws ++ [wmask (smallSigma1 (ws.getD (n - 2) 0) + ws.getD (n - 7) 0 +
                smallSigma0 (ws.getD (n - 15) 0) + ws.getD (n - 16) 0)]

/-- Iterate `scheduleStep` `k` times. -/
def buildSchedule (ws : List Nat) : Nat → List Nat
  | 0 => ws
  | k + 1 => buildSchedule (scheduleStep ws) k

/-- One SHA-256 compression round on the 8-word working state. -/
def roundStep (st : List Nat) (kw : Nat × Nat) : List Nat :=
  match st with
  | [a, b, c, d, e, f, g, h] =>
    let t1 := wmask (h + bigSigma1 e + chF e f g + kw.1 + kw.2)
    let t2 := wmask (bigSigma0 a + majF a b c)
    [wmask (t1 + t2), a, b, c, wmask (d + t1), e, f, g]
  | other => other

/-- Compress one 64-byte chunk into the running hash state. -/
def compressChunk (hs : List Nat) (chunk : List Nat) : List Nat :=
  let ws := buildSchedule (wordsOfChunk chunk) 48
  let st := (roundK.zip ws).foldl roundStep hs
  (hs.zip st).map (fun p => wmask (p.1 + p.2))

/-- SHA-256 of a byte list, as the 8 output words. -/
def sha256Words (msg : List Nat) : List Nat :=
  (chunks64 (padMessage msg)).foldl compressChunk hInit

/-- Lowercase hexadecimal digit. -/
def hexDigit (n : Nat) : Char :=
  if n < 10 then Char.ofNat (48 + n) else Char.ofNat (87 + n)

/-- `x` as `d` hexadecimal characters, most significant first. -/
def hexN : Nat → Nat → List Char
  | 0, _ => []
  | d + 1, x => hexN d (x / 16) ++ [hexDigit (x % 16)]

/-- SHA-256 of a byte list as its 64-character lowercase hex digest,
matching Python `hashlib.sha256(...).hexdigest()`. -/
def sha256Hex (msg : List Nat) : String :=
  ⟨(sha256Words msg).foldl (fun acc w => acc ++ hexN 8 w) []⟩

/-- UTF-8 encoding of one code point. -/
def encodeCharUtf8 (n : Nat) : List Nat :=
  if n < 128 then [n]
  else if n < 2048 then [192 + n / 64, 128 + n % 64]
  else if n < 65536 then [224 + n / 4096, 128 + n / 64 % 64, 128 + n % 64]
  else [240 + n / 262144, 128 + n / 4096 % 64, 128 + n / 64 % 64, 128 + n % 64]

/-- UTF-8 encoding of a string, as Python `str.encode()` produces. -/
def utf8Bytes (s : String) : List Nat :=
  s.data.foldr (fun c acc => encodeCharUtf8 c.toNat ++ acc) []

/-! ## Data model.

A `Transaction` is the dict built by `new_transaction`; a `Block` is the dict
built by `new_block`.  The `previous_hash` slot holds a `PyVal` because the
Python code may receive `None` (the default), a string, or any other value
there, and its truthiness decides the `previous_hash or self.hash(...)`
branch. -/

/-- A dynamically typed Python value as it can appear in the
`previous_hash` position: `None`, a string, or an integer. -/
inductive PyVal where
  | none
  | str (s : String)
  | int (n : Int)
deriving DecidableEq, Repr

/-- Python truthiness: `None`, the empty string and `0` are falsy. -/
def PyVal.truthy : PyVal → Bool
  | .none => false
  | .str s => !(s == "")
  | .int n => !(n == 0)

/-- The dict appended by `new_transaction`. -/
structure Transaction where
  sender : String
  recipient : String
  amount : Int
deriving DecidableEq, Repr

/-- The dict built by `new_block`: keys `index`, `timestamp`, `transactions`,
`proof`, `previous_hash`.  The `time()` float is abstracted as a `Nat`. -/
structure Block where
  index : Nat
  timestamp : Nat
  transactions : List Transaction
  proof : Nat
  previous_hash : PyVal
deriving DecidableEq, Repr

/-! ## `json.dumps(·, sort_keys=True)`.

JSON values as they occur in this program: scalars, and the list of
transaction dicts sitting under the `transactions` key. -/

/-- A JSON value of this program: `null`, an integer, a string, or the
array of transaction dicts. -/
inductive JVal where
  | jnull
  | jint (n : Int)
  | jstr (s : String)
  | jtxs (txs : List Transaction)
deriving DecidableEq, Repr

/-- JSON escaping of one code point as Python's default (`ensure_ascii`)
encoder emits it: the named escapes, `\uXXXX` for other code points below
0x20 or above 0x7e, surrogate pairs above 0xFFFF. -/
def escapeChar (n : Nat) : List Char :=
  if n = 34 then ['\\', '"']
  else if n = 92 then ['\\', '\\']
  else if n = 8 then ['\\', 'b']
  else if n = 9 then ['\\', 't']
  else if n = 10 then ['\\', 'n']
  else if n = 12 then ['\\', 'f']
  else if n = 13 then ['\\', 'r']
  else if n < 32 || 126 < n then
    if n < 65536 then '\\' :: 'u' :: hexN 4 n
    else
      ('\\' :: 'u' :: hexN 4 (55296 + (n - 65536) / 1024)) ++
      ('\\' :: 'u' :: hexN 4 (56320 + (n - 65536) % 1024))
  else [Char.ofNat n]

/-- A JSON string literal, quotes and escapes included. -/
def jsonStr (s : String) : String :=
  "\"" ++ String.mk (s.data.foldr (fun c acc => escapeChar c.toNat ++ acc) []) ++ "\""

/-- Python string comparison on code-point lists: lexicographic, as a
Bool so the kernel can evaluate it. -/
def charsLeb : List Char → List Char → Bool
  | [], _ => true
  | _ :: _, [] => false
  | a :: as, b :: bs =>
    if a.toNat < b.toNat then true
    else if b.toNat < a.toNat then false
    else charsLeb as bs

/-- Python string comparison `a <= b` (code-point lexicographic). -/
def strLeb (a b : String) : Bool := charsLeb a.data b.data

/-- Insert a key-value pair into a key-sorted list. -/
def insertPair (p : String × JVal) : List (String × JVal) → List (String × JVal)
  | [] => [p]
  | q :: qs => if strLeb p.1 q.1 then p :: q :: qs else q :: insertPair p qs

/-- Keys are sorted with Python's code-point string order (insertion
sort, stable like Python's `sorted`). -/
def sortKeys : List (String × JVal) → List (String × JVal)
  | [] => []
  | p :: ps => insertPair p (sortKeys ps)

/-- Render a scalar JSON value (integers print exactly as Python's `str`). -/
def renderScalar : JVal → String
  | .jnull => "null"
  | .jint n => toString n
  | .jstr s => jsonStr s
  | .jtxs _ => ""

/-- Render a dict with `json.dumps` default separators and sorted keys,
given a renderer for the values. -/
def renderDictWith (rv : JVal → String) (d : List (String × JVal)) : String :=
  "\x7b" ++ String.intercalate ", "
      ((sortKeys d).map (fun p => jsonStr p.1 ++ ": " ++ rv p.2)) ++ "\x7d"

/-- The dict of one transaction, in `new_transaction`'s insertion order. -/
def Transaction.toDict (t : Transaction) : List (String × JVal) :=
  [("sender", .jstr t.sender), ("recipient", .jstr t.recipient),
   ("amount", .jint t.amount)]

/-- Render one transaction dict (its values are scalars). -/
def renderTx (t : Transaction) : String :=
  renderDictWith renderScalar t.toDict

/-- Render any JSON value of this program. -/
def renderJVal : JVal → String
  | .jtxs txs => "[" ++ String.intercalate ", " (txs.map renderTx) ++ "]"
  | v => renderScalar v

/-- `json.dumps(d, sort_keys=True)` for a dict `d` of this program. -/
def jsonDumpsSorted (d : List (String × JVal)) : String :=
  renderDictWith renderJVal d

/-- The `previous_hash` slot as a JSON value. -/
def PyVal.toJVal : PyVal → JVal
  | .none => .jnull
  | .str s => .jstr s
  | .int n => .jint n

/-- The dict of a block, in `new_block`'s insertion order. -/
def Block.toDict (b : Block) : List (String × JVal) :=
  [("index", .jint b.index), ("timestamp", .jint b.timestamp),
   ("transactions", .jtxs b.transactions), ("proof", .jint b.proof),
   ("previous_hash", b.previous_hash.toJVal)]

/-- `Blockchain.hash`'s body for an arbitrary dict: SHA-256 hex digest of
the key-sorted JSON dump. -/
def hashDict (d : List (String × JVal)) : String :=
  sha256Hex (utf8Bytes (jsonDumpsSorted d))

/-- `Blockchain.hash`: SHA-256 hex digest of the block's key-sorted JSON
serialization. -/
def Blockchain.hash (block : Block) : String :=
  hashDict block.toDict

/-! ## Proof of work. -/

/-- `Blockchain.valid_proof`: concatenate the two integers as decimal text,
SHA-256 the UTF-8 bytes, and test whether the first 4 hex characters are
`"0000"`. -/
def Blockchain.valid_proof (last_proof proof : Nat) : Bool :=
  let guess := utf8Bytes (Nat.repr last_proof ++ Nat.repr proof)
  let guess_hash := sha256Hex guess
  guess_hash.take 4 == "0000"

/-- The while loop of `Blockchain.proof_of_work`, scanning upward from
`proof`.  The fuel argument makes the unbounded Python loop a total
function: `none` means the loop has not terminated within `fuel`
iterations. -/
def powLoop (last_proof : Nat) : Nat → Nat → Option Nat
  | _, 0 => none
  | proof, fuel + 1 =>
    if Blockchain.valid_proof last_proof proof then some proof
    else powLoop last_proof (proof + 1) fuel

/-- `Blockchain.proof_of_work`: scan `proof = 0, 1, 2, ...` until
`valid_proof(last_proof, proof)` holds. -/
def Blockchain.proof_of_work (last_proof : Nat) (fuel : Nat) : Option Nat :=
  powLoop last_proof 0 fuel

/-! ## The SQLite `blocks` table and `save_block_to_db`. -/

/-- One row of `blocks(block_index INTEGER PRIMARY KEY, timestamp REAL,
proof INTEGER, previous_hash TEXT)`. -/
structure DBRecord where
  block_index : Nat
  timestamp : Nat
  proof : Nat
  previous_hash : PyVal
deriving DecidableEq, Repr

/-- The row `save_block_to_db` inserts for a block. -/
def recordOf (block : Block) : DBRecord :=
  ⟨block.index, block.timestamp, block.proof, block.previous_hash⟩

/-- `INSERT INTO blocks ...`: fails (`none`, modelling
`sqlite3.IntegrityError`) exactly when the primary key `block_index` is
already present. -/
def dbInsert (db : List DBRecord) (r : DBRecord) : Option (List DBRecord) :=
  if (db.map DBRecord.block_index).contains r.block_index then none
  else some (db ++ [r])

/-- `SELECT MAX(block_index) FROM blocks` on a non-empty table. -/
def dbMaxIndex (db : List DBRecord) : Nat :=
  db.foldl (fun m r => max m r.block_index) 0

/-- `Blockchain.save_block_to_db`: try the insert; on an integrity error
reassign the block's index to `MAX(block_index) + 1` (mutating the caller's
block) and retry once, this time unguarded.  Returns the new table together
with the block as the caller sees it afterwards; `none` models an uncaught
`sqlite3.IntegrityError` on the retry. -/
def Blockchain.save_block_to_db (db : List DBRecord) (block : Block) :
    Option (List DBRecord × Block) :=
  match dbInsert db (recordOf block) with
  | some db2 => some (db2, block)
  | none =>
    match dbInsert db (recordOf { block with index := dbMaxIndex db + 1 }) with
    | some db2 => some (db2, { block with index := dbMaxIndex db + 1 })
    | none => none

/-! ## The `Blockchain` class. -/

/-- The mutable state of a `Blockchain` instance together with the SQLite
table it writes through. -/
structure Blockchain where
  chain : List Block
  current_transactions : List Transaction
  db : List DBRecord
deriving DecidableEq, Repr

/-- `Blockchain.new_block`: build the block dict (`previous_hash or
self.hash(self.chain[-1])`, short-circuiting on truthiness), reset the
transaction list, save to the database, append to the chain, and return
the block.  `none` models a raised exception: `chain[-1]` on an empty
chain when the argument is falsy, or an integrity error surfacing from the
save. -/
def Blockchain.new_block (s : Blockchain) (proof : Nat) (previous_hash : PyVal)
    (t : Nat) : Option (Blockchain × Block) :=
  match (if previous_hash.truthy then some previous_hash
         else s.chain.getLast?.map (fun lb => PyVal.str (Blockchain.hash lb))) with
  | none => none
  | some ph =>
    (Blockchain.save_block_to_db s.db
        ⟨s.chain.length + 1, t, s.current_transactions, proof, ph⟩).map
      (fun r => ({ chain := s.chain ++ [r.2], current_transactions := [], db := r.1 },
                 r.2))

/-- `Blockchain.new_transaction`: append the transaction dict to
`current_transactions` and return `last_block['index'] + 1`.  `none`
models the `chain[-1]` failure on an empty chain (Python appends before
raising; the lost mutation is unobservable through the raised call). -/
def Blockchain.new_transaction (s : Blockchain) (sender recipient : String)
    (amount : Int) : Option (Blockchain × Nat) :=
  let s2 := { s with current_transactions :=
      s.current_transactions ++ [⟨sender, recipient, amount⟩] }
  s.chain.getLast?.map (fun lb => (s2, lb.index + 1))

/-- `Blockchain.__init__` on a fresh system: empty chain, empty pending
list, an empty `blocks` table (the SQLite file does not exist yet), then
the genesis call `new_block(previous_hash='1', proof=100)` with genesis
timestamp `t0`. -/
def Blockchain.init_fresh (t0 : Nat) : Option Blockchain :=
  (Blockchain.new_block ⟨[], [], []⟩ 100 (PyVal.str "1") t0).map Prod.fst

/-- The `/mine` handler's ledger interaction: read the last block, run
`proof_of_work` on its proof (`fuel` bounds the unbounded search; `none`
means it has not terminated within `fuel` iterations), hash the last
block, and seal a new block.  `t` is the timestamp `time()` returns inside
`new_block`. -/
def mineStep (s : Blockchain) (t : Nat) (fuel : Nat) : Option (Blockchain × Block) :=
  match s.chain.getLast? with
  | none => none
  | some last_block =>
    match Blockchain.proof_of_work last_block.proof fuel with
    | none => none
    | some proof =>
      Blockchain.new_block s proof (PyVal.str (Blockchain.hash last_block)) t

/-- States of the ledger reachable from a fresh initialization by any
sequence of successful `/mine` calls (with arbitrary timestamps and any
fuel on which the proof search terminates). -/
inductive Reachable : Blockchain → Prop
  | genesis (t0 : Nat) (s : Blockchain) :
      Blockchain.init_fresh t0 = some s → Reachable s
  | mine (s : Blockchain) (t fuel : Nat) (s2 : Blockchain) (b : Block) :
      Reachable s → mineStep s t fuel = some (s2, b) → Reachable s2
  | submit (s : Blockchain) (sender recipient : String) (amount : Int)
      (s2 : Blockchain) (ret : Nat) :
      Reachable s →
      Blockchain.new_transaction s sender recipient amount = some (s2, ret) →
      Reachable s2

/-! ## Derived checks and distinguished states. -/

/-- Chain linkage as an executable check: every block after the first
carries the hash of its predecessor. -/
def chainLinkedb : List Block → Bool
  | [] => true
  | [_] => true
  | a :: b :: rest =>
      (b.previous_hash == PyVal.str (Blockchain.hash a)) && chainLinkedb (b :: rest)

/-- Adjacent proof validity as an executable check: every block after the
first has a proof valid against its predecessor's proof. -/
def proofsValidb : List Block → Bool
  | [] => true
  | [_] => true
  | a :: b :: rest =>
      Blockchain.valid_proof a.proof b.proof && proofsValidb (b :: rest)

/-- The inductive invariant of reachable ledgers: chain indices are
exactly `1, ..., n`, the table holds exactly those indices, hash links and
proofs check out, and the chain is never empty. -/
def Inv (s : Blockchain) : Prop :=
  s.chain.map Block.index = List.range' 1 s.chain.length ∧
  s.db.map DBRecord.block_index = List.range' 1 s.chain.length ∧
  chainLinkedb s.chain = true ∧
  proofsValidb s.chain = true ∧
  s.chain ≠ []

/-- The ledger immediately after a fresh initialization with timestamp 0,
used to instantiate reachability hypotheses on a concrete state. -/
def genesisState : Blockchain :=
  ⟨[⟨1, 0, [], 100, PyVal.str "1"⟩], [], [⟨1, 0, 100, PyVal.str "1"⟩]⟩

/-- A concrete pre-mine ledger: one block whose proof 30916 has least
valid successor proof 2 (so a concrete mine evaluates quickly), and one
pending transaction. -/
def minePoolState : Blockchain :=
  ⟨[⟨1, 0, [], 30916, PyVal.str "1"⟩], [⟨"A", "B", 10⟩],
   [⟨1, 0, 30916, PyVal.str "1"⟩]⟩

/-- The block a mine call on `minePoolState` seals at timestamp 7: proof 2,
linked by the SHA-256 digest of `minePoolState`'s only block. -/
def minedBlock : Block :=
  ⟨2, 7, [⟨"A", "B", 10⟩], 2,
   PyVal.str "6c1cd704c1bfb378ca53add6473e111db7bd55583db20b22b73b0eac77ec1dc3"⟩

/-- The ledger after that mine call. -/
def minedState : Blockchain :=
  ⟨[⟨1, 0, [], 30916, PyVal.str "1"⟩, minedBlock], [],
   [⟨1, 0, 30916, PyVal.str "1"⟩,
    ⟨2, 7, 2,
     PyVal.str "6c1cd704c1bfb378ca53add6473e111db7bd55583db20b22b73b0eac77ec1dc3"⟩]⟩

/-! ## Helper lemmas about the proof-of-work loop. -/

/-- Anything the scan returns is a valid proof, at least the start value,
and minimal among candidates at or above the start value. -/
lemma powLoop_sound : ∀ (lp start fuel p : Nat), powLoop lp start fuel = some p →
    Blockchain.valid_proof lp p = true ∧ start ≤ p ∧
      ∀ q, start ≤ q → q < p → Blockchain.valid_proof lp q = false
  | _, _, 0, _, h => by simp [powLoop] at h
  | lp, start, fuel + 1, p, h => by
    rw [powLoop] at h
    by_cases hv : Blockchain.valid_proof lp start = true
    · rw [if_pos hv] at h
      obtain rfl : start = p := by simpa using h
      exact ⟨hv, le_refl _, fun q h1 h2 => absurd (lt_of_le_of_lt h1 h2) (lt_irrefl _)⟩
    · rw [if_neg hv] at h
      obtain ⟨h1, h2, h3⟩ := powLoop_sound lp (start + 1) fuel p h
      refine ⟨h1, by omega, fun q hq1 hq2 => ?_⟩
      rcases Nat.eq_or_lt_of_le hq1 with rfl | hlt
      · exact Bool.eq_false_iff.mpr hv
      · exact h3 q hlt hq2

/-- If a minimal valid proof lies within the fuel budget, the scan finds
exactly it. -/
lemma powLoop_complete : ∀ (lp start p fuel : Nat),
    Blockchain.valid_proof lp p = true →
    (∀ q, start ≤ q → q < p → Blockchain.valid_proof lp q = false) →
    start ≤ p → p < start + fuel → powLoop lp start fuel = some p
  | _, start, p, 0, _, _, h3, h4 => by omega
  | lp, start, p, fuel + 1, h1, h2, h3, h4 => by
    rw [powLoop]
    rcases Nat.eq_or_lt_of_le h3 with rfl | hlt
    · rw [if_pos h1]
    · rw [if_neg (by simp [h2 start (le_refl _) hlt])]
      exact powLoop_complete lp (start + 1) p fuel h1
        (fun q hq1 hq2 => h2 q (by omega) hq2) hlt (by omega)

/-! ## Helper lemmas about the database. -/

/-- The fold computing `MAX(block_index)` is at least its accumulator. -/
lemma dbMaxFold_ge_acc : ∀ (db : List DBRecord) (a : Nat),
    a ≤ db.foldl (fun m r => max m r.block_index) a
  | [], _ => le_refl _
  | r :: rs, a =>
    le_trans (le_max_left a r.block_index) (dbMaxFold_ge_acc rs _)

/-- Every stored index is at most `MAX(block_index)`. -/
lemma dbMaxFold_ge_mem : ∀ (db : List DBRecord) (r : DBRecord), r ∈ db →
    ∀ a : Nat, r.block_index ≤ db.foldl (fun m r => max m r.block_index) a
  | [], _, hr, _ => absurd hr (List.not_mem_nil _)
  | q :: qs, r, hr, a => by
    rcases List.mem_cons.mp hr with rfl | h
    · exact le_trans (le_max_right a r.block_index) (dbMaxFold_ge_acc qs _)
    · exact dbMaxFold_ge_mem qs r h _

/-- `MAX(block_index) + 1` is not a stored index: the retried insert's
primary-key check cannot fire. -/
lemma dbMaxIndex_succ_not_mem (db : List DBRecord) :
    (db.map DBRecord.block_index).contains (dbMaxIndex db + 1) = false := by
  rw [List.contains_eq_any_beq, List.any_eq_false]
  intro x hx
  obtain ⟨r, hr, rfl⟩ := List.mem_map.mp hx
  have := dbMaxFold_ge_mem db r hr 0
  simp only [beq_iff_eq]
  unfold dbMaxIndex at *
  omega

/-- A save whose first insert does not conflict appends the row and returns
the block unchanged. -/
lemma save_no_conflict (db : List DBRecord) (blk : Block)
    (h : (db.map DBRecord.block_index).contains blk.index = false) :
    Blockchain.save_block_to_db db blk = some (db ++ [recordOf blk], blk) := by
  unfold Blockchain.save_block_to_db dbInsert
  rw [show (recordOf blk).block_index = blk.index from rfl, h]
  rfl

/-- A save whose first insert conflicts reassigns the block's index to
`MAX(block_index) + 1` and appends that row. -/
lemma save_conflict (db : List DBRecord) (blk : Block)
    (h : (db.map DBRecord.block_index).contains blk.index = true) :
    Blockchain.save_block_to_db db blk =
      some (db ++ [recordOf { blk with index := dbMaxIndex db + 1 }],
            { blk with index := dbMaxIndex db + 1 }) := by
  unfold Blockchain.save_block_to_db dbInsert
  rw [show (recordOf blk).block_index = blk.index from rfl, h,
    show (recordOf { blk with index := dbMaxIndex db + 1 }).block_index =
      dbMaxIndex db + 1 from rfl,
    dbMaxIndex_succ_not_mem db]
  rfl

/-- A save returns the caller's block with at most the index changed. -/
lemma save_fields (db : List DBRecord) (blk : Block) (db2 : List DBRecord)
    (blk2 : Block) (h : Blockchain.save_block_to_db db blk = some (db2, blk2)) :
    blk2.timestamp = blk.timestamp ∧ blk2.transactions = blk.transactions ∧
      blk2.proof = blk.proof ∧ blk2.previous_hash = blk.previous_hash := by
  by_cases hc : (db.map DBRecord.block_index).contains blk.index = true
  · rw [save_conflict db blk hc] at h
    simp only [Option.some.injEq, Prod.mk.injEq] at h
    obtain ⟨rfl, rfl⟩ := h
    simp
  · rw [save_no_conflict db blk (Bool.not_eq_true _ ▸ hc)] at h
    simp only [Option.some.injEq, Prod.mk.injEq] at h
    obtain ⟨rfl, rfl⟩ := h
    simp

/-! ## The chain invariant. -/

lemma natList_contains_false (l : List Nat) (x : Nat) (h : x ∉ l) :
    l.contains x = false := by
  rw [List.contains_eq_any_beq, List.any_eq_false]
  intro a ha
  simp only [beq_iff_eq]
  rintro rfl
  exact h ha

lemma range'_snoc (n : Nat) : List.range' 1 n ++ [n + 1] = List.range' 1 (n + 1) := by
  rw [@List.range'_concat 1 1 n]
  simp [Nat.add_comm]

lemma chainLinkedb_snoc : ∀ (c : List Block) (last b : Block),
    c.getLast? = some last → chainLinkedb c = true →
    (b.previous_hash == PyVal.str (Blockchain.hash last)) = true →
    chainLinkedb (c ++ [b]) = true
  | [], _, _, h, _, _ => by simp at h
  | [a], last, b, h, _, h2 => by
    obtain rfl : a = last := by simpa using h
    show ((b.previous_hash == PyVal.str (Blockchain.hash a)) && true) = true
    simpa using h2
  | a :: a2 :: rest, last, b, h, h1, h2 => by
    rw [List.getLast?_cons_cons] at h
    have e : chainLinkedb (a :: a2 :: rest) =
        ((a2.previous_hash == PyVal.str (Blockchain.hash a)) &&
          chainLinkedb (a2 :: rest)) := rfl
    rw [e, Bool.and_eq_true] at h1
    have ih := chainLinkedb_snoc (a2 :: rest) last b h h1.2 h2
    show ((a2.previous_hash == PyVal.str (Blockchain.hash a)) &&
        chainLinkedb ((a2 :: rest) ++ [b])) = true
    rw [Bool.and_eq_true]
    exact ⟨h1.1, ih⟩

lemma proofsValidb_snoc : ∀ (c : List Block) (last b : Block),
    c.getLast? = some last → proofsValidb c = true →
    Blockchain.valid_proof last.proof b.proof = true →
    proofsValidb (c ++ [b]) = true
  | [], _, _, h, _, _ => by simp at h
  | [a], last, b, h, _, h2 => by
    obtain rfl : a = last := by simpa using h
    show (Blockchain.valid_proof a.proof b.proof && true) = true
    simpa using h2
  | a :: a2 :: rest, last, b, h, h1, h2 => by
    rw [List.getLast?_cons_cons] at h
    have e : proofsValidb (a :: a2 :: rest) =
        (Blockchain.valid_proof a.proof a2.proof && proofsValidb (a2 :: rest)) := rfl
    rw [e, Bool.and_eq_true] at h1
    have ih := proofsValidb_snoc (a2 :: rest) last b h h1.2 h2
    show (Blockchain.valid_proof a.proof a2.proof &&
        proofsValidb ((a2 :: rest) ++ [b])) = true
    rw [Bool.and_eq_true]
    exact ⟨h1.1, ih⟩

/-- With the hash-link argument, `new_block` seals the expected block:
the truthiness test is immaterial because a falsy (empty) hash string
falls back to hashing the same last block. -/
lemma new_block_hash_arg (s : Blockchain) (p t : Nat) (last : Block)
    (hl : s.chain.getLast? = some last) :
    Blockchain.new_block s p (PyVal.str (Blockchain.hash last)) t =
      (Blockchain.save_block_to_db s.db
          ⟨s.chain.length + 1, t, s.current_transactions, p,
            PyVal.str (Blockchain.hash last)⟩).map
        (fun r => ({ chain := s.chain ++ [r.2], current_transactions := [],
                     db := r.1 }, r.2)) := by
  unfold Blockchain.new_block
  have hcond : (if (PyVal.str (Blockchain.hash last)).truthy = true
      then some (PyVal.str (Blockchain.hash last))
      else s.chain.getLast?.map fun lb => PyVal.str (Blockchain.hash lb)) =
      some (PyVal.str (Blockchain.hash last)) := by
    split
    · rfl
    · rw [hl]; rfl
  rw [hcond]

lemma inv_init (t0 : Nat) (s : Blockchain)
    (h : Blockchain.init_fresh t0 = some s) : Inv s := by
  have e : Blockchain.init_fresh t0 =
      some ⟨[⟨1, t0, [], 100, PyVal.str "1"⟩], [],
            [⟨1, t0, 100, PyVal.str "1"⟩]⟩ := rfl
  rw [e] at h
  injection h with h2
  subst h2
  exact ⟨rfl, rfl, rfl, rfl, by simp⟩

lemma inv_submit (s : Blockchain) (sd rc : String) (am : Int) (s2 : Blockchain)
    (ret : Nat) (hI : Inv s)
    (h : Blockchain.new_transaction s sd rc am = some (s2, ret)) : Inv s2 := by
  unfold Blockchain.new_transaction at h
  rcases hl : s.chain.getLast? with _ | last
  · rw [hl] at h; cases h
  · rw [hl] at h
    simp only [Option.map_some', Option.some.injEq, Prod.mk.injEq] at h
    obtain ⟨rfl, -⟩ := h
    exact hI

lemma inv_mine (s : Blockchain) (t fuel : Nat) (s2 : Blockchain) (b : Block)
    (hI : Inv s) (h : mineStep s t fuel = some (s2, b)) : Inv s2 := by
  obtain ⟨hidx, hdb, hlink, hproofs, hne⟩ := hI
  unfold mineStep at h
  split at h
  · simp at h
  next last hl =>
    split at h
    · simp at h
    next p hp =>
      rw [new_block_hash_arg s p t last hl] at h
      have hnc : (s.db.map DBRecord.block_index).contains
          (s.chain.length + 1) = false := by
        apply natList_contains_false
        rw [hdb]
        intro hmem
        rw [List.mem_range'_1] at hmem
        omega
      rw [save_no_conflict _ _ hnc] at h
      simp only [Option.map_some', Option.some.injEq, Prod.mk.injEq] at h
      obtain ⟨rfl, rfl⟩ := h
      have hval : Blockchain.valid_proof last.proof p = true :=
        (powLoop_sound last.proof 0 fuel p hp).1
      refine ⟨?_, ?_, ?_, ?_, by simp⟩
      · show (s.chain ++ [_]).map Block.index =
          List.range' 1 (s.chain ++ [_]).length
        rw [List.map_append, hidx, List.length_append]
        exact range'_snoc s.chain.length
      · show (s.db ++ [_]).map DBRecord.block_index =
          List.range' 1 (s.chain ++ [_]).length
        rw [List.map_append, hdb, List.length_append]
        exact range'_snoc s.chain.length
      · exact chainLinkedb_snoc s.chain last _ hl hlink (by simp)
      · exact proofsValidb_snoc s.chain last _ hl hproofs hval

/-- Every reachable ledger satisfies the invariant. -/
lemma reachable_inv (s : Blockchain) (h : Reachable s) : Inv s := by
  induction h with
  | genesis t0 s h => exact inv_init t0 s h
  | mine s t fuel s2 b _ h ih => exact inv_mine s t fuel s2 b ih h
  | submit s sd rc am s2 ret _ h ih => exact inv_submit s sd rc am s2 ret ih h

/-- A save never raises: the conflict repair always succeeds. -/
lemma save_isSome (db : List DBRecord) (blk : Block) :
    (Blockchain.save_block_to_db db blk).isSome = true := by
  by_cases hc : (db.map DBRecord.block_index).contains blk.index = true
  · rw [save_conflict db blk hc]; rfl
  · rw [save_no_conflict db blk (Bool.not_eq_true _ ▸ hc)]; rfl

/-- With a falsy `previous_hash` argument and a non-empty chain,
`new_block` links to the hash of the current last block. -/
lemma new_block_falsy (s : Blockchain) (p t : Nat) (v : PyVal) (last : Block)
    (hv : v.truthy = false) (hl : s.chain.getLast? = some last) :
    Blockchain.new_block s p v t =
      (Blockchain.save_block_to_db s.db
          ⟨s.chain.length + 1, t, s.current_transactions, p,
            PyVal.str (Blockchain.hash last)⟩).map
        (fun r => ({ chain := s.chain ++ [r.2], current_transactions := [],
                     db := r.1 }, r.2)) := by
  unfold Blockchain.new_block
  rw [hv, if_neg (by simp : ¬ (false = true)), hl]
  rfl

/-! ## Helper lemmas about key sorting, for hash canonicity. -/

lemma char_eq_of_toNat_eq (a b : Char) (h : a.toNat = b.toNat) : a = b := by
  rcases a with ⟨⟨av⟩, ha⟩
  rcases b with ⟨⟨bv⟩, hb⟩
  simp only [Char.toNat, UInt32.toNat] at h
  have h2 : av = bv := BitVec.eq_of_toNat_eq h
  subst h2
  rfl

lemma charsLeb_total : ∀ a b : List Char, charsLeb a b = true ∨ charsLeb b a = true
  | [], _ => Or.inl rfl
  | _ :: _, [] => Or.inr rfl
  | a :: as, b :: bs => by
    simp only [charsLeb]
    by_cases hab : a.toNat < b.toNat
    · left; rw [if_pos hab]
    · by_cases hba : b.toNat < a.toNat
      · right; rw [if_pos hba]
      · rw [if_neg hab, if_neg hba, if_neg hba, if_neg hab]
        exact charsLeb_total as bs

lemma charsLeb_trans : ∀ a b c : List Char, charsLeb a b = true →
    charsLeb b c = true → charsLeb a c = true
  | [], _, _, _, _ => rfl
  | _ :: _, [], _, h1, _ => by simp [charsLeb] at h1
  | _ :: _, _ :: _, [], _, h2 => by simp [charsLeb] at h2
  | a :: as, b :: bs, c :: cs, h1, h2 => by
    simp only [charsLeb] at h1 h2 ⊢
    by_cases hab : a.toNat < b.toNat
    · by_cases hbc : b.toNat < c.toNat
      · rw [if_pos (by omega : a.toNat < c.toNat)]
      · rw [if_neg hbc] at h2
        by_cases hcb : c.toNat < b.toNat
        · rw [if_pos hcb] at h2; exact absurd h2 (by simp)
        · rw [if_pos (by omega : a.toNat < c.toNat)]
    · rw [if_neg hab] at h1
      by_cases hba : b.toNat < a.toNat
      · rw [if_pos hba] at h1; exact absurd h1 (by simp)
      · rw [if_neg hba] at h1
        by_cases hbc : b.toNat < c.toNat
        · rw [if_pos (by omega : a.toNat < c.toNat)]
        · rw [if_neg hbc] at h2
          by_cases hcb : c.toNat < b.toNat
          · rw [if_pos hcb] at h2; exact absurd h2 (by simp)
          · rw [if_neg hcb] at h2
            rw [if_neg (by omega : ¬ a.toNat < c.toNat),
              if_neg (by omega : ¬ c.toNat < a.toNat)]
            exact charsLeb_trans as bs cs h1 h2

lemma charsLeb_antisymm : ∀ a b : List Char, charsLeb a b = true →
    charsLeb b a = true → a = b
  | [], [], _, _ => rfl
  | [], _ :: _, _, h2 => by simp [charsLeb] at h2
  | _ :: _, [], h1, _ => by simp [charsLeb] at h1
  | a :: as, b :: bs, h1, h2 => by
    simp only [charsLeb] at h1 h2
    by_cases hab : a.toNat < b.toNat
    · rw [if_neg (by omega), if_pos hab] at h2; exact absurd h2 (by simp)
    · by_cases hba : b.toNat < a.toNat
      · rw [if_neg hab, if_pos hba] at h1; exact absurd h1 (by simp)
      · rw [if_neg hab, if_neg hba] at h1
        rw [if_neg hba, if_neg hab] at h2
        rw [char_eq_of_toNat_eq a b (by omega),
          charsLeb_antisymm as bs h1 h2]

lemma strLeb_total (a b : String) : strLeb a b = true ∨ strLeb b a = true :=
  charsLeb_total a.data b.data

lemma strLeb_trans (a b c : String) (h1 : strLeb a b = true)
    (h2 : strLeb b c = true) : strLeb a c = true :=
  charsLeb_trans a.data b.data c.data h1 h2

lemma strLeb_antisymm (a b : String) (h1 : strLeb a b = true)
    (h2 : strLeb b a = true) : a = b := by
  rcases a with ⟨da⟩
  rcases b with ⟨db⟩
  rw [charsLeb_antisymm da db h1 h2]

lemma insertPair_perm : ∀ (p : String × JVal) (l : List (String × JVal)),
    (insertPair p l).Perm (p :: l)
  | _, [] => List.Perm.refl _
  | p, q :: qs => by
    unfold insertPair
    split
    · exact List.Perm.refl _
    · exact ((insertPair_perm p qs).cons q).trans (List.Perm.swap p q qs)

lemma sortKeys_perm : ∀ d : List (String × JVal), (sortKeys d).Perm d
  | [] => List.Perm.refl _
  | p :: ps => (insertPair_perm p (sortKeys ps)).trans ((sortKeys_perm ps).cons p)

lemma insertPair_pairwise (p : String × JVal) :
    ∀ l : List (String × JVal),
    l.Pairwise (fun x y => strLeb x.1 y.1 = true) →
    (insertPair p l).Pairwise (fun x y => strLeb x.1 y.1 = true)
  | [], _ =>
    List.Pairwise.cons (fun b hb => absurd hb (List.not_mem_nil b))
      List.Pairwise.nil
  | q :: qs, h => by
    unfold insertPair
    split
    next hpq =>
      refine List.Pairwise.cons ?_ h
      intro r hr
      rcases List.mem_cons.mp hr with rfl | hr2
      · exact hpq
      · exact strLeb_trans _ _ _ hpq ((List.pairwise_cons.mp h).1 r hr2)
    next hpq =>
      have hq := List.pairwise_cons.mp h
      refine List.Pairwise.cons ?_ (insertPair_pairwise p qs hq.2)
      intro r hr
      rcases List.mem_cons.mp ((insertPair_perm p qs).mem_iff.mp hr) with rfl | hr2
      · rcases strLeb_total r.1 q.1 with h1 | h1
        · exact absurd h1 hpq
        · exact h1
      · exact hq.1 r hr2

lemma sortKeys_pairwise : ∀ d : List (String × JVal),
    (sortKeys d).Pairwise (fun x y => strLeb x.1 y.1 = true)
  | [] => List.Pairwise.nil
  | p :: ps => insertPair_pairwise p (sortKeys ps) (sortKeys_pairwise ps)

/-- Two key-sorted lists with the same elements and duplicate-free keys are
equal. -/
lemma eq_of_perm_sorted_nodupkeys (l1 l2 : List (String × JVal))
    (hp : l1.Perm l2)
    (h1 : l1.Pairwise (fun x y => strLeb x.1 y.1 = true))
    (h2 : l2.Pairwise (fun x y => strLeb x.1 y.1 = true))
    (hnd : (l1.map Prod.fst).Nodup) : l1 = l2 := by
  haveI : IsAntisymm (String × JVal)
      (fun x y => strLeb x.1 y.1 = true ∧ x.1 ≠ y.1) :=
    ⟨fun a b ha hb => absurd (strLeb_antisymm _ _ ha.1 hb.1) ha.2⟩
  have hnd2 : (l2.map Prod.fst).Nodup := ((hp.map Prod.fst).nodup_iff).mp hnd
  have s1 : l1.Pairwise (fun x y => strLeb x.1 y.1 = true ∧ x.1 ≠ y.1) :=
    h1.and (List.pairwise_map.mp hnd)
  have s2 : l2.Pairwise (fun x y => strLeb x.1 y.1 = true ∧ x.1 ≠ y.1) :=
    h2.and (List.pairwise_map.mp hnd2)
  exact List.eq_of_perm_of_sorted hp s1 s2

/-- Key-sorting maps permuted duplicate-free dicts to the same list. -/
lemma sortKeys_eq_of_perm (d1 d2 : List (String × JVal)) (hp : d1.Perm d2)
    (hnd : (d1.map Prod.fst).Nodup) : sortKeys d1 = sortKeys d2 :=
  eq_of_perm_sorted_nodupkeys _ _
    ((sortKeys_perm d1).trans (hp.trans (sortKeys_perm d2).symm))
    (sortKeys_pairwise d1) (sortKeys_pairwise d2)
    (((sortKeys_perm d1).map Prod.fst).nodup_iff.mpr hnd)

/-! ## The claims. -/

/-- C1: in every ledger reachable by a fresh initialization followed by any
sequence of mine (and transaction-submission) calls, every block after the
first carries `previous_hash` equal to `Blockchain.hash` of its
predecessor — the SHA-256 hex digest of the predecessor's key-sorted JSON
serialization.  `chainLinkedb` checks exactly this for every adjacent
pair. -/
theorem C1_chain_linkage (s : Blockchain) (h : Reachable s) :
    chainLinkedb s.chain = true :=
  (reachable_inv s h).2.2.1

/-- Witness for C1 at the freshly initialized ledger. -/
theorem C1_chain_linkage_witness : chainLinkedb genesisState.chain = true :=
  C1_chain_linkage genesisState (Reachable.genesis 0 genesisState rfl)

/-- C2: in every reachable ledger, every mined block's proof validates
against its predecessor's proof: `valid_proof` — SHA-256 of the decimal
concatenation starting with four `'0'` hex characters — holds on every
adjacent pair, which is exactly how each block was sealed. -/
theorem C2_proof_validity (s : Blockchain) (h : Reachable s) :
    proofsValidb s.chain = true :=
  (reachable_inv s h).2.2.2.1

/-- Witness for C2 at the freshly initialized ledger. -/
theorem C2_proof_validity_witness : proofsValidb genesisState.chain = true :=
  C2_proof_validity genesisState (Reachable.genesis 0 genesisState rfl)

/-- C3: in every reachable ledger the chain's index fields are exactly
`1, 2, ..., n` in order — the block at 1-based position `i` has index `i`,
with no gaps or duplicates (the conflict repair never fires from a fresh
store, so indices are never rewritten). -/
theorem C3_monotonic_index (s : Blockchain) (h : Reachable s) :
    s.chain.map Block.index = List.range' 1 s.chain.length :=
  (reachable_inv s h).1

/-- Witness for C3 at the freshly initialized ledger. -/
theorem C3_monotonic_index_witness :
    genesisState.chain.map Block.index = List.range' 1 genesisState.chain.length :=
  C3_monotonic_index genesisState (Reachable.genesis 0 genesisState rfl)

/-- C4: when some proof is valid for `last_proof` and `p` is the least
such, the proof-of-work scan terminates — any fuel beyond `p` suffices,
witnessing termination of the unbounded Python loop — and returns exactly
`p`, the smallest valid proof. -/
theorem C4_pow_minimal (last_proof p : Nat)
    (hv : Blockchain.valid_proof last_proof p = true)
    (hmin : ∀ q, q < p → Blockchain.valid_proof last_proof q = false) :
    ∀ fuel, p < fuel → Blockchain.proof_of_work last_proof fuel = some p :=
  fun fuel hf =>
    powLoop_complete last_proof 0 p fuel hv (fun q _ hq => hmin q hq)
      (Nat.zero_le p) (by omega)

/-- Witness for C4: the least valid proof against 30916 is 2, and the scan
finds it. -/
theorem C4_pow_minimal_witness : Blockchain.proof_of_work 30916 3 = some 2 :=
  C4_pow_minimal 30916 2 (by decide) (by decide) 3 (by decide)

/-- C5: a block sealed by a mine call carries exactly the transactions that
were pending at sealing time, in submission order, and the pool is empty
immediately afterwards; `new_transaction` appends exactly one dict at the
pool's tail, so nothing is duplicated or dropped. -/
theorem C5_pool_drain :
    (∀ (s : Blockchain) (t fuel : Nat) (s2 : Blockchain) (b : Block),
      mineStep s t fuel = some (s2, b) →
        b.transactions = s.current_transactions ∧ s2.current_transactions = []) ∧
    (∀ (s : Blockchain) (sd rc : String) (am : Int) (s2 : Blockchain) (ret : Nat),
      Blockchain.new_transaction s sd rc am = some (s2, ret) →
        s2.current_transactions = s.current_transactions ++ [⟨sd, rc, am⟩]) := by
  constructor
  · intro s t fuel s2 b h
    unfold mineStep at h
    split at h
    · simp at h
    next last hl =>
      split at h
      · simp at h
      next p hp =>
        rw [new_block_hash_arg s p t last hl] at h
        rcases hs : Blockchain.save_block_to_db s.db
            ⟨s.chain.length + 1, t, s.current_transactions, p,
              PyVal.str (Blockchain.hash last)⟩ with _ | ⟨db2, b2⟩
        · rw [hs] at h; simp at h
        · rw [hs] at h
          simp only [Option.map_some', Option.some.injEq, Prod.mk.injEq] at h
          obtain ⟨rfl, rfl⟩ := h
          exact ⟨(save_fields _ _ _ _ hs).2.1, rfl⟩
  · intro s sd rc am s2 ret h
    unfold Blockchain.new_transaction at h
    rcases hl : s.chain.getLast? with _ | last
    · rw [hl] at h; cases h
    · rw [hl] at h
      simp only [Option.map_some', Option.some.injEq, Prod.mk.injEq] at h
      obtain ⟨rfl, -⟩ := h
      rfl

/-- Witness for C5: mining on `minePoolState` moves its one pending
transaction into the sealed block and empties the pool; a submission
appends at the tail. -/
theorem C5_pool_drain_witness :
    (minedBlock.transactions = minePoolState.current_transactions ∧
      minedState.current_transactions = []) ∧
    (⟨[⟨1, 0, [], 30916, PyVal.str "1"⟩], [⟨"A", "B", 10⟩, ⟨"A", "C", 5⟩],
      [⟨1, 0, 30916, PyVal.str "1"⟩]⟩ : Blockchain).current_transactions =
      minePoolState.current_transactions ++ [⟨"A", "C", 5⟩] :=
  ⟨C5_pool_drain.1 minePoolState 7 3 minedState minedBlock (by decide),
   C5_pool_drain.2 minePoolState "A" "C" 5
     ⟨[⟨1, 0, [], 30916, PyVal.str "1"⟩], [⟨"A", "B", 10⟩, ⟨"A", "C", 5⟩],
      [⟨1, 0, 30916, PyVal.str "1"⟩]⟩ 2 (by decide)⟩

/-- C6: a fresh initialization yields a chain of exactly one block, with
index 1, previous_hash the string `"1"`, proof 100 (and the supplied
genesis timestamp). -/
theorem C6_genesis (t0 : Nat) :
    (Blockchain.init_fresh t0).map Blockchain.chain =
      some [⟨1, t0, [], 100, PyVal.str "1"⟩] := rfl

/-- C7: a save hitting the `block_index` uniqueness conflict stores the
block under `MAX(block_index) + 1` and hands the caller the block mutated
to that index, with the retried insert succeeding. -/
theorem C7_conflict_reassign (db : List DBRecord) (blk : Block)
    (h : blk.index ∈ db.map DBRecord.block_index) :
    Blockchain.save_block_to_db db blk =
      some (db ++ [recordOf { blk with index := dbMaxIndex db + 1 }],
            { blk with index := dbMaxIndex db + 1 }) :=
  save_conflict db blk (by
    rw [List.contains_eq_any_beq, List.any_eq_true]
    exact ⟨blk.index, h, by simp⟩)

/-- Witness for C7: saving a block claiming index 5 into a store already
holding block_index 5 stores and returns it as index 6. -/
theorem C7_conflict_reassign_witness :
    Blockchain.save_block_to_db [⟨5, 3, 9, PyVal.str "x"⟩]
        ⟨5, 4, [], 7, PyVal.str "y"⟩ =
      some ([⟨5, 3, 9, PyVal.str "x"⟩, ⟨6, 4, 7, PyVal.str "y"⟩],
            ⟨6, 4, [], 7, PyVal.str "y"⟩) :=
  C7_conflict_reassign [⟨5, 3, 9, PyVal.str "x"⟩] ⟨5, 4, [], 7, PyVal.str "y"⟩
    (by decide)

/-- C8: the repaired insert cannot itself conflict — `MAX(block_index) + 1`
is never already stored — so the unguarded second insert's error branch is
unreachable and `save_block_to_db` always returns normally. -/
theorem C8_save_total :
    (∀ db : List DBRecord,
      (db.map DBRecord.block_index).contains (dbMaxIndex db + 1) = false) ∧
    (∀ (db : List DBRecord) (blk : Block),
      (Blockchain.save_block_to_db db blk).isSome = true) := by
  refine ⟨dbMaxIndex_succ_not_mem, fun db blk => ?_⟩
  by_cases hc : (db.map DBRecord.block_index).contains blk.index = true
  · rw [save_conflict db blk hc]; rfl
  · rw [save_no_conflict db blk (Bool.not_eq_true _ ▸ hc)]; rfl

/-- C9: `Blockchain.hash` is deterministic, and insertion-order
independent: two dicts holding the same key-value pairs (with
duplicate-free keys) in any order serialize — and therefore hash —
identically, because `json.dumps(..., sort_keys=True)` sorts the keys. -/
theorem C9_hash_canonical :
    (∀ b : Block, Blockchain.hash b = Blockchain.hash b) ∧
    (∀ d1 d2 : List (String × JVal), d1.Perm d2 → (d1.map Prod.fst).Nodup →
      hashDict d1 = hashDict d2) := by
  refine ⟨fun b => rfl, fun d1 d2 hp hnd => ?_⟩
  unfold hashDict jsonDumpsSorted renderDictWith
  rw [sortKeys_eq_of_perm d1 d2 hp hnd]

/-- Witness for C9: the hash of a two-field dict is unchanged when its
fields are given in the opposite order. -/
theorem C9_hash_canonical_witness :
    Blockchain.hash ⟨1, 0, [], 100, PyVal.str "1"⟩ =
      Blockchain.hash ⟨1, 0, [], 100, PyVal.str "1"⟩ ∧
    hashDict [("b", JVal.jint 1), ("a", JVal.jstr "x")] =
      hashDict [("a", JVal.jstr "x"), ("b", JVal.jint 1)] :=
  ⟨C9_hash_canonical.1 ⟨1, 0, [], 100, PyVal.str "1"⟩,
   C9_hash_canonical.2 _ _ (List.Perm.swap ("a", JVal.jstr "x") ("b", JVal.jint 1) [])
     (by decide)⟩

/-- C10: a falsy `previous_hash` argument (`None`, the empty string, or 0)
is treated as absent: with a non-empty chain the sealed block links to the
hash of the current last block instead of the falsy value; with an empty
chain such a call fails (`chain[-1]` raises); initialization succeeds only
because it passes the truthy sentinel `"1"`. -/
theorem C10_falsy_previous_hash :
    (∀ (s : Blockchain) (p t : Nat) (v : PyVal) (last : Block),
      v.truthy = false → s.chain.getLast? = some last →
      (Blockchain.new_block s p v t).map (fun r => r.2.previous_hash) =
        some (PyVal.str (Blockchain.hash last))) ∧
    (∀ (pool : List Transaction) (db : List DBRecord) (p t : Nat) (v : PyVal),
      v.truthy = false →
      Blockchain.new_block ⟨[], pool, db⟩ p v t = none) ∧
    (∀ t0 : Nat, (Blockchain.init_fresh t0).isSome = true) := by
  refine ⟨?_, ?_, fun t0 => rfl⟩
  · intro s p t v last hv hl
    rw [new_block_falsy s p t v last hv hl]
    rcases hs : Blockchain.save_block_to_db s.db
        ⟨s.chain.length + 1, t, s.current_transactions, p,
          PyVal.str (Blockchain.hash last)⟩ with _ | ⟨db2, b2⟩
    · have h2 := save_isSome s.db
        ⟨s.chain.length + 1, t, s.current_transactions, p,
          PyVal.str (Blockchain.hash last)⟩
      rw [hs] at h2
      exact absurd h2 (by simp)
    · simp only [Option.map_some']
      rw [(save_fields _ _ _ _ hs).2.2.2]
  · intro pool db p t v hv
    unfold Blockchain.new_block
    rw [hv, if_neg (by simp : ¬ (false = true))]
    rfl

/-- Witness for C10: a `None` argument on the one-block ledger links to the
genesis hash; an empty-string argument on an empty chain fails; a fresh
initialization succeeds. -/
theorem C10_falsy_previous_hash_witness :
    (Blockchain.new_block genesisState 7 PyVal.none 9).map
        (fun r => r.2.previous_hash) =
      some (PyVal.str (Blockchain.hash ⟨1, 0, [], 100, PyVal.str "1"⟩)) ∧
    Blockchain.new_block ⟨[], [], []⟩ 7 (PyVal.str "") 9 = none ∧
    (Blockchain.init_fresh 0).isSome = true :=
  ⟨C10_falsy_previous_hash.1 genesisState 7 9 PyVal.none
     ⟨1, 0, [], 100, PyVal.str "1"⟩ rfl rfl,
   C10_falsy_previous_hash.2.1 [] [] 7 9 (PyVal.str "") rfl,
   C10_falsy_previous_hash.2.2 0⟩

end Nusantara

example : Nusantara.Blockchain.valid_proof 30916 2 = true := by decide

example : Nusantara.Blockchain.valid_proof 30916 0 = false := by decide

example : Nusantara.Blockchain.proof_of_work 30916 3 = some 2 := by decide

example (t0 : Nat) : Nusantara.Blockchain.init_fresh t0 =
    some ⟨[⟨1, t0, [], 100, Nusantara.PyVal.str "1"⟩], [],
          [⟨1, t0, 100, Nusantara.PyVal.str "1"⟩]⟩ := rfl

example : Nusantara.sha256Hex (Nusantara.utf8Bytes "abc") =
    "ba7816bf8f01cfea414140de5dae2223b00361a396177a9cb410ff61f20015ad" := by decide

example : Nusantara.sha256Hex (Nusantara.utf8Bytes "hello world") =
    "b94d27b9934d3e08a52e52d7da7dabfac484efe37a5380ee9088f7ace2efcde9" := by decide

example : Nusantara.jsonDumpsSorted (Nusantara.Block.toDict
    ⟨1, 0, [], 30916, Nusantara.PyVal.str "1"⟩) =
    "\x7b\"index\": 1, \"previous_hash\": \"1\", \"proof\": 30916, \"timestamp\": 0, \"transactions\": []\x7d" := by decide

example : Nusantara.Blockchain.hash ⟨1, 0, [], 30916, Nusantara.PyVal.str "1"⟩ =
    "6c1cd704c1bfb378ca53add6473e111db7bd55583db20b22b73b0eac77ec1dc3" := by decide

example : Nusantara.Blockchain.hash ⟨2, 7,
    [⟨"A", "B", 10⟩, ⟨"C", "D", -3⟩], 2,
    Nusantara.PyVal.str "6c1cd704c1bfb378ca53add6473e111db7bd55583db20b22b73b0eac77ec1dc3"⟩ =
    "b890dabbfebc51a75f47a68bad8158316ff4dac96891756a105d3fa2a8e78cd8" := by decide
